import Mathlib

/-!
# Verification of the `strmangle` identifier case-conversion core

Shallow embedding of `src/strmangle/strmangle.go` (package `strmangle` of
`bouk/sqlboiler`).  Go strings are modelled as `List Char` / `String`
(identifiers are ASCII per the data model, so Go's byte indexing and
Lean's character lists coincide on the intended inputs); Go `int` is
modelled as `Int`; a Go `panic` is modelled as `Option.none`.

The reusable byte-buffer pool (`GetBuffer` / `PutBuffer`) is not part of
the sources under verification.  Modelled from the spec: the pool hands
out a scratch buffer per call, scoped acquire/release; the computed
string value survives until read.  The acquire/use/release protocol
itself is modelled separately as an event trace (`BufEvent`).
-/

namespace Strmangle

/-- `c > 96 && c < 123` — the ASCII lowercase-letter test used throughout
`TitleCase` (lines 207, 217, 224 of `strmangle.go`). -/
def isLowerAscii (c : Char) : Bool :=
  decide (96 < c.toNat ∧ c.toNat < 123)

/-- `c > 47 && c < 58` — the ASCII digit test of line 207. -/
def isDigitAscii (c : Char) : Bool :=
  decide (47 < c.toNat ∧ c.toNat < 58)

/-- `c == 97 || c == 101 || c == 105 || c == 111 || c == 117 || c == 121`
— the vowel test of line 205 (`a`, `e`, `i`, `o`, `u`, `y`; lowercase
bytes only). -/
def isVowel (c : Char) : Bool :=
  c == 'a' || c == 'e' || c == 'i' || c == 'o' || c == 'u' || c == 'y'

/-- ASCII uppercase-letter test (`A`–`Z`), used to state properties about
already-uppercase words. -/
def isUpperAscii (c : Char) : Bool :=
  decide (64 < c.toNat ∧ c.toNat < 91)

/-- The byte transform of lines 217–221: a lowercase ASCII letter is
shifted by `-32` (`buf.WriteByte(c - 32)`), anything else is copied. -/
def upperChar (c : Char) : Char :=
  if isLowerAscii c then Char.ofNat (c.toNat - 32) else c

/-- The `uppercaseWords` map of lines 20–25. -/
def uppercaseWords : List String := ["guid", "id", "uid", "uuid"]

/-- The per-word rendering block of `TitleCase`, lines 199–230:
`numStart` is the index of the first digit (or `len(word)`), the word
matches when `word[:numStart]` is in `uppercaseWords`; on
`match || !vowels` every lowercase letter is uppercased, otherwise only
a lowercase first byte is uppercased. -/
def renderWord (word : List Char) : List Char :=
  let numStart := word.findIdx isDigitAscii
  let vowels := word.any isVowel
  let isMatch := uppercaseWords.contains (String.mk (word.take numStart))
  if isMatch || !vowels then
    word.map upperChar
  else
    match word with
    | [] => []
    | c :: rest => if isLowerAscii c then upperChar c :: rest else c :: rest

/-- The scanning loop of `TitleCase` (lines 181–234), fused with the
rendering of each word.  `cur` plays the role of the slice
`name[start:end]` accumulated between the two cursors: an underscore
either advances both cursors (`cur = []`) or terminates the current word,
which is rendered into the buffer; the end of input renders the pending
word. -/
def scanRender (cur : List Char) : List Char → List Char
  | [] => if cur == [] then [] else renderWord cur
  | c :: cs =>
    if c == '_' then
      if cur == [] then scanRender [] cs else renderWord cur ++ scanRender [] cs
    else
      scanRender (cur ++ [c]) cs

/-- The Word Segmenter on its own (same scan as `scanRender`, yielding the
word list instead of the rendered buffer). -/
def scanWords (cur : List Char) : List Char → List (List Char)
  | [] => if cur == [] then [] else [cur]
  | c :: cs =>
    if c == '_' then
      if cur == [] then scanWords [] cs else cur :: scanWords [] cs
    else
      scanWords (cur ++ [c]) cs

/-- The ordered word sequence `TitleCase` processes for an input. -/
def splitWords (l : List Char) : List (List Char) := scanWords [] l

/-- Pure value computed by `TitleCase` on a cache miss (lines 177–236):
scan, render each word, concatenate. -/
def renderWords (l : List Char) : List Char := scanRender [] l

/-- `TitleCase` (lines 168–245), as the pure function of its input; the
memoization cache around it is modelled by `titleCaseCached`. -/
def TitleCase (s : String) : String := String.mk (renderWords s.data)

/-- The Alphabetic Prefix of a word per the spec (§4.2): the substring
before the word's first digit, or the whole word. -/
def alphaPart (w : List Char) : List Char :=
  w.takeWhile (fun c => !(isDigitAscii c))

/-- The Case Renderer as the spec and claim C3 state it: the acronym path
(every lowercase letter uppercased) is taken exactly when the Alphabetic
Prefix is an uppercase token or the word has no vowel; otherwise only a
lowercase first character is uppercased. -/
def renderWordSpec (w : List Char) : List Char :=
  if uppercaseWords.contains (String.mk (alphaPart w)) || !(w.any isVowel) then
    w.map upperChar
  else
    match w with
    | [] => []
    | c :: rest => if isLowerAscii c then upperChar c :: rest else c :: rest

/-- The Word Segmenter as the spec states it (§4.1): the maximal
underscore-free run at the front (`takeWhile`), then the rest, with
separator runs skipped. -/
def wordsSpec : List Char → List (List Char)
  | [] => []
  | c :: cs =>
    if c == '_' then wordsSpec cs
    else (c :: cs.takeWhile (fun x => !(x == '_'))) :: wordsSpec (cs.dropWhile (fun x => !(x == '_')))
termination_by l => l.length
decreasing_by
  · simp
  · simpa using Nat.lt_succ_of_le ((List.dropWhile_sublist _).length_le)

/-- `CamelCase` (lines 251–285): drop leading underscores (`index` of the
first non-underscore byte; all-underscore input returns `""`), then split
at the first remaining underscore: no underscore returns the string
verbatim, otherwise the part before it is copied verbatim and the part
after it goes through `TitleCase`. -/
def camelCase (name : List Char) : List Char :=
  let stripped := name.dropWhile (fun c => c == '_')
  if stripped == [] then
    []
  else
    match stripped.findIdx? (fun c => c == '_') with
    | none => stripped
    | some i => stripped.take i ++ renderWords (stripped.drop (i + 1))

/-- String-level `CamelCase`. -/
def CamelCase (s : String) : String := String.mk (camelCase s.data)

/-- The dot-walking loop of `TitleCaseIdentifier` (lines 289–326), as a
scan: `cur` is the fragment `id[lastDot:nextDot]`; hitting a dot renders
the fragment through `TitleCase` and writes a separating `'.'`; the end
of the input (the `nextDot == ln` sentinel) renders the final fragment.
The no-dot fast path (line 291, `return TitleCase(id)`) coincides with
the terminal case. -/
def scanFrags (cur : List Char) : List Char → List Char
  | [] => renderWords cur
  | c :: cs =>
    if c == '.' then renderWords cur ++ '.' :: scanFrags [] cs
    else scanFrags (cur ++ [c]) cs

/-- `TitleCaseIdentifier` (lines 289–326).  The Go function releases its
scratch buffer before reading the result out of it; the buffer pool is
modelled from the spec as value-preserving (see `BufEvent` for the
protocol violation itself), so the returned value is the buffer's
content. -/
def TitleCaseIdentifier (s : String) : String := String.mk (scanFrags [] s.data)

/-- Splitting a string on `'.'` (keeping empty fragments), following the
spec's words for `TitleCaseIdentifier`: used as the specification side of
the split/map/join contract. -/
def scanSplit (cur : List Char) : List Char → List (List Char)
  | [] => [cur]
  | c :: cs =>
    if c == '.' then cur :: scanSplit [] cs
    else scanSplit (cur ++ [c]) cs

/-- The dot-separated components of a string (empty fragments kept). -/
def splitDots (l : List Char) : List (List Char) := scanSplit [] l

/-- Rejoining fragments with `'.'`, following the spec's words. -/
def joinDots : List (List Char) → List Char
  | [] => []
  | [w] => w
  | w :: ws => w ++ '.' :: joinDots ws

/-! ## Result cache (lines 156–159, 169–175, 239–242)

The Go cache is a `map[string]string` guarded by an `RWMutex`; calls are
modelled sequentially as explicit state passing over an association
list (most recent write first, as the map lookup sees it). -/

/-- One call of `TitleCase` against the cache: the `RLock` read
(lines 170–175) returns a hit immediately; a miss computes the rendering
and stores it (lines 240–242). -/
def titleCaseCached (cache : List (String × String)) (n : String) :
    String × List (String × String) :=
  match cache.lookup n with
  | some val => (val, cache)
  | none => (TitleCase n, (n, TitleCase n) :: cache)

/-- Every entry of the cache maps its key to the segment-and-render
result for that key. -/
def goodCache (cache : List (String × String)) : Bool :=
  cache.all (fun kv => kv.2 == TitleCase kv.1)

/-- A sequence of `TitleCase` calls threaded through the shared cache,
returning every call's result and the final cache. -/
def runCalls : List String → List (String × String) → List String × List (String × String)
  | [], cache => ([], cache)
  | n :: ns, cache =>
    let r := titleCaseCached cache n
    let rest := runCalls ns r.2
    (r.1 :: rest.1, rest.2)

/-! ## Buffer-pool protocol traces

The scoped acquire/use/release discipline of the scratch buffer is
modelled as the sequence of pool events a call performs on its own
buffer, read off the source's control flow. -/

/-- An operation a call performs on its scratch buffer. -/
inductive BufEvent where
  | acquire : BufEvent
  | use : BufEvent
  | release : BufEvent
deriving DecidableEq

/-- Buffer events of a `TitleCase` call on a cache miss (lines 179–237):
`GetBuffer`, one write batch per word, `buf.String()`, `PutBuffer`.
(The cache-hit path returns before acquiring any buffer.) -/
def titleCaseTrace (n : String) : List BufEvent :=
  [BufEvent.acquire] ++ (splitWords n.data).map (fun _ => BufEvent.use)
    ++ [BufEvent.use, BufEvent.release]

/-- Buffer events of a `CamelCase` call (lines 252–284): `GetBuffer` with
a deferred `PutBuffer`; the all-underscore early return writes nothing;
otherwise one or two `WriteString`s and the final `buf.String()`, which
the deferred release follows. -/
def camelCaseTrace (name : String) : List BufEvent :=
  let stripped := name.data.dropWhile (fun c => c == '_')
  if stripped == [] then
    [BufEvent.acquire, BufEvent.release]
  else
    match stripped.findIdx? (fun c => c == '_') with
    | none => [BufEvent.acquire, BufEvent.use, BufEvent.use, BufEvent.release]
    | some _ =>
      [BufEvent.acquire, BufEvent.use, BufEvent.use, BufEvent.use, BufEvent.release]

/-- Buffer events of a `TitleCaseIdentifier` call (lines 289–326): the
no-dot path returns `TitleCase(id)` without acquiring a buffer of its
own; otherwise `GetBuffer`, one write batch per dot-separated fragment,
then `PutBuffer` (line 324) and only afterwards `buf.String()`
(line 325). -/
def titleCaseIdentifierTrace (id : String) : List BufEvent :=
  if id.data.count '.' == 0 then
    []
  else
    [BufEvent.acquire] ++ List.replicate (id.data.count '.' + 1) BufEvent.use
      ++ [BufEvent.release, BufEvent.use]

/-- The scoped-acquisition discipline on a trace that acquired a buffer:
exactly one release, and no use after it. -/
def scopedOk (t : List BufEvent) : Bool :=
  t.count BufEvent.release == 1
    && !(((t.dropWhile (fun e => !(e == BufEvent.release))).drop 1).contains BufEvent.use)

/-! ## Adjacent SQL formatting helpers (lines 372–398, 419–435)

A Go `panic` is modelled as `none`. -/

/-- `Placeholders` (lines 372–398): panics when `start == 0 || group == 0`
before writing anything; otherwise emits `$start, $start+1, ...`,
parenthesised in groups when `group > 1`. -/
def Placeholders (count : Int) (start : Int) (group : Int) : Option String :=
  if start = 0 ∨ group = 0 then
    none
  else
    let body := (List.range count.toNat).foldl
      (fun buf i =>
        let sep :=
          if i ≠ 0 then
            if group > 1 ∧ (i : Int) % group = 0 then "),(" else ","
          else ""
        buf ++ sep ++ "$" ++ toString (start + i)) ""
    some ((if group > 1 then "(" else "") ++ body ++ (if group > 1 then ")" else ""))

/-- `WhereClause` (lines 419–435): panics when `start == 0`; otherwise
joins `"col"=$k` items with `" AND "`. -/
def WhereClause (start : Int) (cols : List String) : Option String :=
  if start = 0 then
    none
  else
    some (String.intercalate " AND "
      ((cols.enum).map (fun ic => "\"" ++ ic.2 ++ "\"=$" ++ toString (start + ic.1))))

end Strmangle

namespace Strmangle

example : TitleCase "column_name_id" = "ColumnNameID" := by decide
example : TitleCase "xyz" = "Xyz" := by decide
example : TitleCase "xz" = "XZ" := by decide
example : TitleCase "uuid" = "UUID" := by decide
example : TitleCase "person" = "Person" := by decide
example : TitleCase "Abc" = "ABC" := by decide
example : TitleCase "___" = "" := by decide
example : TitleCase "id3" = "ID3" := by decide
example : CamelCase "var_name_id" = "varNameID" := by decide
example : CamelCase "___" = "" := by decide
example : CamelCase "noUnderscore" = "noUnderscore" := by decide
example : TitleCaseIdentifier "a.b.c" = "A.B.C" := by decide
example : TitleCaseIdentifier "a." = "A." := by decide
example : TitleCaseIdentifier ".a" = ".A" := by decide
example : TitleCaseIdentifier "a..b" = "A..B" := by decide
example : Placeholders 1 (-1) 1 = some "$-1" := by decide
example : Placeholders 6 1 3 = some "($1,$2,$3),($4,$5,$6)" := by decide
example : Placeholders 3 1 1 = some "$1,$2,$3" := by decide
example : Placeholders 3 1 0 = none := by decide
example : WhereClause 2 ["colthing", "colstuff"] = some "\"colthing\"=$2 AND \"colstuff\"=$3" := by decide
example : WhereClause 0 ["a"] = none := by decide
example : titleCaseIdentifierTrace "a.b" =
    [BufEvent.acquire, BufEvent.use, BufEvent.use, BufEvent.release, BufEvent.use] := by decide
example : scopedOk (titleCaseIdentifierTrace "a.b") = false := by decide
example : scopedOk (titleCaseTrace "a_b") = true := by decide
example : scopedOk (camelCaseTrace "a_b") = true := by decide
example : (runCalls ["id", "id", "a"] []).1 = ["ID", "ID", "A"] := by decide

/-! ## Helper lemmas -/

/-- Taking up to the first index satisfying `p` is taking while `p` fails:
relates the `numStart` index arithmetic of lines 203–212 to the spec's
"substring before the first digit". -/
theorem take_findIdx {α : Type} (p : α → Bool) (l : List α) :
    l.take (l.findIdx p) = l.takeWhile (fun c => !(p c)) := by
  induction l with
  | nil => rfl
  | cons c cs ih =>
    rw [List.findIdx_cons]
    cases hp : p c
    · simp [List.takeWhile_cons, hp, ih]
    · simp [List.takeWhile_cons, hp]

/-! ## C2 -/

/-- C2 counterexample: `TitleCase "xyz"` is `"Xyz"`, not `"XYZ"` — the
vowel test of line 205 counts `'y'` (byte 121) as a vowel, so `"xyz"` is
not deemed vowel-free and takes the normal path. -/
theorem c2_counterexample : TitleCase "xyz" ≠ "XYZ" ∧ TitleCase "xyz" = "Xyz" := by
  decide

/-- C2 amended: `"xyz"` contains the vowel `'y'` and renders as `"Xyz"`;
a word that really is vowel-free and outside the exception set, such as
`"xz"`, is rendered fully uppercase. -/
theorem c2_amended_vowel : TitleCase "xyz" = "Xyz" ∧ isVowel 'y' = true ∧
    TitleCase "xz" = "XZ" := by
  decide

/-! ## C5 -/

/-- C5 failing input: in `TitleCaseIdentifier "a.b"` the scratch buffer is
acquired, written, then released (`PutBuffer`, line 324) and only
afterwards read to build the return value (`buf.String()`, line 325) —
a use after release.  The sibling `TitleCase` and `CamelCase` traces obey
the scoped discipline on the same input. -/
theorem c5_use_after_release :
    titleCaseIdentifierTrace "a.b" =
      [BufEvent.acquire, BufEvent.use, BufEvent.use, BufEvent.release, BufEvent.use] ∧
    scopedOk (titleCaseIdentifierTrace "a.b") = false ∧
    scopedOk (titleCaseTrace "a.b") = true ∧
    scopedOk (camelCaseTrace "a.b") = true := by
  decide

/-! ## C7 -/

/-- C7 counterexample: a negative `start` does not abort — the guards of
lines 376 and 420 test equality with zero only, so `Placeholders(1,-1,1)`
returns `"$-1"` and `WhereClause(-1, ["a"])` returns `"a"=$-1`. -/
theorem c7_counterexample :
    Placeholders 1 (-1) 1 = some "$-1" ∧ WhereClause (-1) ["a"] = some "\"a\"=$-1" := by
  decide

/-- C7 amended: `Placeholders` aborts exactly when `start = 0` or
`group = 0`, and `WhereClause` exactly when `start = 0`; the check runs
before any output is produced, and all other values (negative ones
included) produce output. -/
theorem c7_amended_guards (count start group : Int) (cols : List String) :
    (Placeholders count start group = none ↔ start = 0 ∨ group = 0) ∧
    (WhereClause start cols = none ↔ start = 0) := by
  constructor
  · rw [Placeholders.eq_def]
    split
    · simp_all
    · simp_all
  · rw [WhereClause.eq_def]
    split
    · simp_all
    · simp_all

/-! ## C10 -/

/-- The vowel test of line 205 checks lowercase bytes only, so an ASCII
uppercase letter is never a vowel. -/
theorem not_vowel_of_upper {c : Char} (h : isUpperAscii c = true) : isVowel c = false := by
  have hlt : 64 < c.toNat ∧ c.toNat < 91 := by simpa [isUpperAscii] using h
  simp only [isVowel, Bool.or_eq_false_iff, beq_eq_false_iff_ne, ne_eq]
  refine ⟨⟨⟨⟨⟨?_, ?_⟩, ?_⟩, ?_⟩, ?_⟩, ?_⟩ <;> (rintro rfl; exact absurd hlt (by decide))

/-- The `c - 32` shift of line 218 only fires on lowercase bytes, so an
uppercase letter passes through unchanged. -/
theorem upperChar_eq_self_of_upper {c : Char} (h : isUpperAscii c = true) : upperChar c = c := by
  have hlt : 64 < c.toNat ∧ c.toNat < 91 := by simpa [isUpperAscii] using h
  rw [upperChar, if_neg]
  simp only [isLowerAscii, decide_eq_true_eq, not_and, not_lt]
  omega

/-- C10: a word whose letters are all ASCII uppercase contains no vowel in
the eyes of the lowercase-only vowel test, so it takes the acronym path
and comes back unchanged; in particular `TitleCase "Abc" = "ABC"`, since
the uppercase vowel `'A'` does not stop the no-vowel heuristic. -/
theorem c10_uppercase_word_acronym :
    (∀ w : List Char, w.all isUpperAscii = true →
      w.any isVowel = false ∧ renderWord w = w) ∧
    TitleCase "Abc" = "ABC" := by
  refine ⟨fun w h => ?_, by decide⟩
  rw [List.all_eq_true] at h
  have hv : w.any isVowel = false := by
    rw [List.any_eq_false]
    intro c hc
    simp [not_vowel_of_upper (h c hc)]
  refine ⟨hv, ?_⟩
  rw [renderWord.eq_def]
  simp only [hv, Bool.not_false, Bool.or_true, if_pos]
  calc w.map upperChar = w.map id := List.map_congr_left
        (fun c hc => upperChar_eq_self_of_upper (h c hc))
    _ = w := List.map_id w

/-- C10 witness at the all-uppercase word `"AB"`. -/
theorem c10_uppercase_word_acronym_witness :
    ("AB".data.all isUpperAscii = true) ∧
    ("AB".data.any isVowel = false ∧ renderWord "AB".data = "AB".data) :=
  ⟨by decide, c10_uppercase_word_acronym.1 "AB".data (by decide)⟩

/-! ## C3 -/

/-- C3: on every non-empty word the rendering block of lines 199–230
agrees with the spec's description of the Case Renderer
(`renderWordSpec`): full uppercasing exactly when the alphabetic prefix
is an uppercase token or no vowel occurs, else first-letter
capitalization of a lowercase first character, else the word verbatim. -/
theorem c3_case_renderer (w : List Char) (h : w ≠ []) :
    renderWord w = renderWordSpec w := by
  simp only [renderWord.eq_def, renderWordSpec.eq_def, alphaPart.eq_def]
  rw [take_findIdx]

/-- C3 witness at the word `"id7"` (uppercase-token prefix with digits). -/
theorem c3_case_renderer_witness :
    ("id7".data ≠ []) ∧ renderWord "id7".data = renderWordSpec "id7".data :=
  ⟨by decide, c3_case_renderer "id7".data (by decide)⟩

/-! ## C4 -/

/-- The fused scan of `TitleCase` writes exactly the concatenation of the
rendered words the segmenter yields. -/
theorem scanRender_eq_join (l : List Char) :
    ∀ cur, scanRender cur l = ((scanWords cur l).map renderWord).join := by
  induction l with
  | nil =>
    intro cur
    rw [scanRender, scanWords]
    by_cases h : cur == [] <;> simp [h]
  | cons c cs ih =>
    intro cur
    rw [scanRender, scanWords]
    by_cases hc : c == '_'
    · by_cases h : cur == [] <;> simp [hc, h, ih]
    · simp [hc, ih]

/-- Unfolding equation of `wordsSpec` at `[]`. -/
theorem wordsSpec_nil : wordsSpec [] = [] := by
  rw [wordsSpec]

/-- Unfolding equation of `wordsSpec` at a cons cell. -/
theorem wordsSpec_cons (c : Char) (cs : List Char) :
    wordsSpec (c :: cs) =
      if c == '_' then wordsSpec cs
      else (c :: cs.takeWhile (fun x => !(x == '_'))) ::
        wordsSpec (cs.dropWhile (fun x => !(x == '_'))) := by
  rw [wordsSpec]

/-- The accumulator scan of lines 181–234 computes the spec's
segmentation (§4.1): the first maximal underscore-free run, then the
rest.  First component: from an empty accumulator; second: a pending
non-empty word extends into the run at the front of the input. -/
theorem scanWords_eq_wordsSpec (l : List Char) :
    scanWords [] l = wordsSpec l ∧
    (∀ cur, cur ≠ [] → scanWords cur l =
      (cur ++ l.takeWhile (fun x => !(x == '_'))) :: wordsSpec (l.dropWhile (fun x => !(x == '_')))) := by
  induction l with
  | nil =>
    constructor
    · simp [scanWords, wordsSpec_nil]
    · intro cur h
      rw [scanWords]
      simp [h, wordsSpec_nil]
  | cons c cs ih =>
    constructor
    · rw [scanWords, wordsSpec_cons]
      by_cases hc : c == '_'
      · simp [hc, ih.1]
      · simp only [hc, Bool.false_eq_true, if_false, List.nil_append]
        rw [ih.2 [c] (by simp)]
        simp
    · intro cur h
      rw [scanWords, List.takeWhile_cons, List.dropWhile_cons]
      by_cases hc : c == '_'
      · have hc' : c = '_' := by simpa using hc
        simp only [hc, if_pos, hc', beq_self_eq_true, Bool.not_true, Bool.false_eq_true,
          if_false, if_neg (by simpa using h : ¬(cur == []) = true), List.append_nil]
        rw [ih.1, wordsSpec_cons]
        simp
      · have hc' : (c == '_') = false := by simpa using hc
        simp only [hc', Bool.false_eq_true, if_false, Bool.not_false, if_pos]
        rw [ih.2 (cur ++ [c]) (by simp)]
        simp

/-- C4: on a cache miss `TitleCase` returns the rendered forms of the
left-to-right maximal underscore-free words of its input, concatenated
with no separator (underscores dropped); in particular
`TitleCase "column_name_id" = "ColumnNameID"`. -/
theorem c4_titlecase_concat :
    (∀ s : String, TitleCase s = String.mk (((wordsSpec s.data).map renderWord).join)) ∧
    TitleCase "column_name_id" = "ColumnNameID" := by
  refine ⟨fun s => ?_, by decide⟩
  rw [TitleCase, renderWords, scanRender_eq_join, (scanWords_eq_wordsSpec s.data).1]

/-! ## C9 -/

/-- Words produced by the segmenter scan are non-empty and contain no
underscore (so reading a word's first byte, line 224, is always safe). -/
theorem scanWords_sound (l : List Char) :
    ∀ cur w, '_' ∉ cur → w ∈ scanWords cur l → w ≠ [] ∧ '_' ∉ w := by
  induction l with
  | nil =>
    intro cur w hcur hw
    rw [scanWords] at hw
    by_cases h : cur == [] <;> simp [h] at hw
    subst hw
    exact ⟨by simpa using h, hcur⟩
  | cons c cs ih =>
    intro cur w hcur hw
    rw [scanWords] at hw
    by_cases hc : c == '_'
    · simp only [hc, if_true] at hw
      by_cases h : cur == []
      · simp only [h, if_true] at hw
        exact ih [] w (by simp) hw
      · simp only [h, Bool.false_eq_true, if_false, List.mem_cons] at hw
        rcases hw with rfl | hw
        · exact ⟨by simpa using h, hcur⟩
        · exact ih [] w (by simp) hw
    · simp only [hc, Bool.false_eq_true, if_false] at hw
      refine ih (cur ++ [c]) w ?_ hw
      simp only [List.mem_append, List.mem_singleton]
      rintro (h | rfl)
      · exact hcur h
      · simp at hc

/-- An all-underscore input leaves the scan's buffer empty. -/
theorem scanRender_all_underscore (l : List Char) (h : ∀ c ∈ l, c = '_') :
    scanRender [] l = [] := by
  induction l with
  | nil => rfl
  | cons c cs ih =>
    have hc : c = '_' := h c (by simp)
    rw [scanRender]
    simp only [hc, if_pos]
    exact ih (fun x hx => h x (by simp [hx]))

/-- C9: the conversion core is total — every input yields a defined
string; the segmenter never yields an empty word (nor one containing an
underscore), and an empty or all-underscore input renders to the empty
string; `CamelCase` and `TitleCaseIdentifier` are likewise defined on
the empty string. -/
theorem c9_total_safe (s : String) :
    (∀ w ∈ splitWords s.data, w ≠ [] ∧ '_' ∉ w) ∧
    (s.data.all (fun c => c == '_') = true → TitleCase s = "") ∧
    TitleCase "" = "" ∧ CamelCase "" = "" ∧ TitleCaseIdentifier "" = "" := by
  refine ⟨fun w hw => scanWords_sound s.data [] w (by simp) hw, fun h => ?_,
    by decide, by decide, by decide⟩
  rw [List.all_eq_true] at h
  rw [TitleCase, renderWords, scanRender_all_underscore s.data (fun c hc => by simpa using h c hc)]

/-- C9 witness at the all-underscore input `"___"`. -/
theorem c9_total_safe_witness : TitleCase "___" = "" :=
  (c9_total_safe "___").2.1 (by decide)

/-! ## C6 -/

/-- C6: `CamelCase` strips all leading underscores; if nothing remains it
returns `""`; a remainder with no underscore is returned verbatim (not
case-transformed); otherwise the part before the first remaining
underscore is returned verbatim, followed directly by `TitleCase` of the
part after it; in particular `CamelCase "var_name_id" = "varNameID"`. -/
theorem c6_camelcase (s : String) :
    (s.data.dropWhile (fun c => c == '_') = [] → CamelCase s = "") ∧
    ((s.data.dropWhile (fun c => c == '_')).findIdx? (fun c => c == '_') = none →
      CamelCase s = String.mk (s.data.dropWhile (fun c => c == '_'))) ∧
    (∀ i, (s.data.dropWhile (fun c => c == '_')).findIdx? (fun c => c == '_') = some i →
      CamelCase s = String.mk ((s.data.dropWhile (fun c => c == '_')).take i) ++
        TitleCase (String.mk ((s.data.dropWhile (fun c => c == '_')).drop (i + 1)))) ∧
    CamelCase "var_name_id" = "varNameID" := by
  refine ⟨fun h => ?_, fun h => ?_, fun i h => ?_, by decide⟩
  · simp [CamelCase, camelCase, h]
  · by_cases he : s.data.dropWhile (fun c => c == '_') = []
    · simp [CamelCase, camelCase, he]
    · simp [CamelCase, camelCase, he, h]
  · have he : ¬ s.data.dropWhile (fun c => c == '_') = [] := by
      intro hh
      rw [hh] at h
      simp at h
    simp only [CamelCase, camelCase, he, beq_iff_eq, if_false, h]
    rfl

/-- C6 witness at `"var_name_id"` (first underscore at index 3). -/
theorem c6_camelcase_witness :
    ("var_name_id".data.dropWhile (fun c => c == '_')).findIdx? (fun c => c == '_') = some 3 ∧
    CamelCase "var_name_id" =
      String.mk (("var_name_id".data.dropWhile (fun c => c == '_')).take 3) ++
        TitleCase (String.mk (("var_name_id".data.dropWhile (fun c => c == '_')).drop (3 + 1))) :=
  ⟨by decide, (c6_camelcase "var_name_id").2.2.1 3 (by decide)⟩

/-! ## C8 -/

/-- A successful map lookup comes from an entry of the list. -/
theorem mem_of_lookup {cache : List (String × String)} {k v : String}
    (h : cache.lookup k = some v) : (k, v) ∈ cache := by
  induction cache with
  | nil => simp at h
  | cons kv rest ih =>
    obtain ⟨a, b⟩ := kv
    rw [List.lookup_cons] at h
    by_cases hak : k == a
    · simp only [hak] at h
      obtain rfl : b = v := by simpa using h
      obtain rfl : k = a := by simpa using hak
      exact List.mem_cons_self _ _
    · rw [Bool.eq_false_iff.mpr hak] at h
      exact List.mem_cons_of_mem _ (ih h)

/-- One `TitleCase` call through the cache: against a good cache it
returns the pure rendering and leaves the cache good. -/
theorem titleCaseCached_good {cache : List (String × String)}
    (h : goodCache cache = true) (n : String) :
    (titleCaseCached cache n).1 = TitleCase n ∧
    goodCache (titleCaseCached cache n).2 = true := by
  rw [titleCaseCached.eq_def]
  cases hl : cache.lookup n with
  | none =>
    refine ⟨rfl, ?_⟩
    rw [goodCache] at h ⊢
    simp [h]
  | some val =>
    have hval : val = TitleCase n := by
      have hmem := mem_of_lookup hl
      have := (List.all_eq_true.mp (by rw [goodCache] at h; exact h)) (n, val) hmem
      simpa using this
    exact ⟨hval, h⟩

/-- C8: any sequence of `TitleCase` calls threaded through a good cache
(the empty cache included) returns exactly the pure segment-and-render
result for every call, in every order, and every entry ever stored in
the cache maps its key to that same pure result. -/
theorem c8_cache_invariant (calls : List String) (cache : List (String × String))
    (h : goodCache cache = true) :
    (runCalls calls cache).1 = calls.map TitleCase ∧
    goodCache (runCalls calls cache).2 = true := by
  induction calls generalizing cache with
  | nil => exact ⟨rfl, h⟩
  | cons n ns ih =>
    obtain ⟨h1, h2⟩ := titleCaseCached_good h n
    obtain ⟨ih1, ih2⟩ := ih (titleCaseCached cache n).2 h2
    rw [runCalls]
    exact ⟨by rw [List.map_cons, ih1, h1], ih2⟩

/-- C8 witness: two calls on `"id"` and one on `"a"` from the empty
cache. -/
theorem c8_cache_invariant_witness :
    (runCalls ["id", "id", "a"] []).1 = ["id", "id", "a"].map TitleCase ∧
    goodCache (runCalls ["id", "id", "a"] []).2 = true :=
  c8_cache_invariant ["id", "id", "a"] [] (by decide)

/-! ## C1 -/

/-- `Char.ofNat` on a plain-ASCII-range code is the code itself. -/
theorem toNat_ofNat_valid {k : Nat} (h : k < 55296) : (Char.ofNat k).toNat = k := by
  rw [Char.ofNat, dif_pos (Or.inl h)]
  rfl

/-- The `c - 32` shift never produces a `'.'` from a non-dot byte (it
maps lowercase letters into `A`–`Z`). -/
theorem upperChar_ne_dot {c : Char} (h : ¬ c = '.') : ¬ upperChar c = '.' := by
  rw [upperChar]
  by_cases hl : isLowerAscii c
  · rw [if_pos hl]
    have hb : 96 < c.toNat ∧ c.toNat < 123 := by simpa [isLowerAscii] using hl
    intro he
    have ht : (Char.ofNat (c.toNat - 32)).toNat = Char.toNat '.' := congrArg Char.toNat he
    rw [toNat_ofNat_valid (by omega), show Char.toNat '.' = 46 from by decide] at ht
    omega
  · rw [if_neg hl]
    exact h

/-- Rendering a dot-free word yields a dot-free word. -/
theorem not_dot_renderWord {w : List Char} (h : '.' ∉ w) : '.' ∉ renderWord w := by
  have hmap : '.' ∉ w.map upperChar := by
    intro hmem
    obtain ⟨c, hc, hec⟩ := List.mem_map.mp hmem
    exact upperChar_ne_dot (fun he => h (he ▸ hc)) hec
  simp only [renderWord.eq_def]
  split
  · exact hmap
  · cases w with
    | nil => simp
    | cons c rest =>
      show '.' ∉ (if isLowerAscii c = true then upperChar c :: rest else c :: rest)
      by_cases hl : isLowerAscii c
      · rw [if_pos hl]
        intro hmem
        rcases List.mem_cons.mp hmem with he | hr
        · exact upperChar_ne_dot (fun hc => h (by simp [hc])) he.symm
        · exact h (List.mem_cons_of_mem _ hr)
      · rw [if_neg hl]
        exact h

/-- The `TitleCase` scan maps dot-free input to dot-free output. -/
theorem not_dot_scanRender (l : List Char) :
    ∀ cur, '.' ∉ cur → '.' ∉ l → '.' ∉ scanRender cur l := by
  induction l with
  | nil =>
    intro cur hcur _
    rw [scanRender]
    by_cases h : cur == []
    · simp [h]
    · simp only [h, Bool.false_eq_true, if_false]
      exact not_dot_renderWord hcur
  | cons c cs ih =>
    intro cur hcur hl
    have hc : ¬ c = '.' := fun he => hl (by simp [he])
    have hcs : '.' ∉ cs := fun hm => hl (List.mem_cons_of_mem _ hm)
    rw [scanRender]
    by_cases hu : c == '_'
    · simp only [hu, if_pos]
      by_cases h : cur == []
      · simp only [h, if_pos]
        exact ih [] (by simp) hcs
      · simp only [h, Bool.false_eq_true, if_false]
        intro hmem
        rcases List.mem_append.mp hmem with hm | hm
        · exact not_dot_renderWord hcur hm
        · exact ih [] (by simp) hcs hm
    · simp only [hu, Bool.false_eq_true, if_false]
      refine ih (cur ++ [c]) ?_ hcs
      intro hm
      rcases List.mem_append.mp hm with hm | hm
      · exact hcur hm
      · simp at hm
        exact hc hm.symm

/-- The dot split always yields at least one component. -/
theorem scanSplit_ne_nil (l : List Char) : ∀ cur, scanSplit cur l ≠ [] := by
  induction l with
  | nil =>
    intro cur
    rw [scanSplit]
    simp
  | cons c cs ih =>
    intro cur
    rw [scanSplit]
    by_cases hc : c == '.'
    · simp [hc]
    · simp only [hc, Bool.false_eq_true, if_false]
      exact ih (cur ++ [c])

/-- Components produced by the dot split contain no dot. -/
theorem not_dot_scanSplit (l : List Char) :
    ∀ cur p, '.' ∉ cur → p ∈ scanSplit cur l → '.' ∉ p := by
  induction l with
  | nil =>
    intro cur p hcur hp
    rw [scanSplit] at hp
    simp at hp
    exact hp ▸ hcur
  | cons c cs ih =>
    intro cur p hcur hp
    rw [scanSplit] at hp
    by_cases hc : c == '.'
    · simp only [hc, if_pos, List.mem_cons] at hp
      rcases hp with rfl | hp
      · exact hcur
      · exact ih [] p (by simp) hp
    · simp only [hc, Bool.false_eq_true, if_false] at hp
      refine ih (cur ++ [c]) p ?_ hp
      intro hm
      rcases List.mem_append.mp hm with hm | hm
      · exact hcur hm
      · simp at hm
        exact absurd hm.symm (by simpa using hc)

/-- Unfolding of `joinDots` at a cons cell with a non-empty tail. -/
theorem joinDots_cons (w : List Char) {ws : List (List Char)} (h : ws ≠ []) :
    joinDots (w :: ws) = w ++ '.' :: joinDots ws := by
  cases ws with
  | nil => exact absurd rfl h
  | cons q rs => rfl

/-- The fragment walk of `TitleCaseIdentifier` is split-map-join: it
writes the rendered fragments of the dot split, joined with dots. -/
theorem scanFrags_eq (l : List Char) :
    ∀ cur, scanFrags cur l = joinDots ((scanSplit cur l).map renderWords) := by
  induction l with
  | nil =>
    intro cur
    rw [scanFrags, scanSplit, List.map_cons, List.map_nil, joinDots]
  | cons c cs ih =>
    intro cur
    rw [scanFrags, scanSplit]
    by_cases hc : c == '.'
    · simp only [hc, if_pos, List.map_cons]
      rw [joinDots_cons _ (fun hmm => scanSplit_ne_nil cs [] (by simpa using hmm))]
      rw [ih []]
    · simp only [hc, Bool.false_eq_true, if_false]
      exact ih (cur ++ [c])

/-- Scanning past a dot-free block extends the accumulator. -/
theorem scanSplit_append (w : List Char) :
    ∀ cur l, '.' ∉ w → scanSplit cur (w ++ l) = scanSplit (cur ++ w) l := by
  induction w with
  | nil =>
    intro cur l _
    simp
  | cons c cw ih =>
    intro cur l hw
    have hc : (c == '.') = false := by
      simp only [beq_eq_false_iff_ne, ne_eq]
      intro he
      exact hw (by simp [he])
    rw [List.cons_append, scanSplit]
    simp only [hc, Bool.false_eq_true, if_false]
    rw [ih (cur ++ [c]) l (fun hm => hw (List.mem_cons_of_mem _ hm))]
    simp

/-- Splitting the dot join of dot-free components recovers the
components (with the accumulator merged into the first one). -/
theorem scanSplit_joinDots (rest : List (List Char)) :
    ∀ p cur, '.' ∉ p → (∀ q ∈ rest, '.' ∉ q) →
    scanSplit cur (joinDots (p :: rest)) = (cur ++ p) :: rest := by
  induction rest with
  | nil =>
    intro p cur hp _
    rw [joinDots]
    have h9 := scanSplit_append p cur [] hp
    rw [List.append_nil] at h9
    rw [h9, scanSplit]
  | cons q rs ih =>
    intro p cur hp hrest
    rw [joinDots_cons p (by simp)]
    rw [scanSplit_append p cur _ hp, scanSplit]
    rw [if_pos (show ('.' == '.') = true from by decide)]
    rw [ih q [] (hrest q (by simp)) (fun x hx => hrest x (by simp [hx]))]
    simp

/-- C1: `TitleCaseIdentifier` equals the split-on-`'.'` / `TitleCase`
each fragment / rejoin-with-`'.'` pipeline, every fragment (empty ones
from leading, trailing or repeated dots, and a `"*"` wildcard alike)
kept in order; consequently the output has exactly as many dot-separated
components as the input. -/
theorem c1_identifier_split (s : String) :
    TitleCaseIdentifier s = String.mk (joinDots ((splitDots s.data).map
      (fun w => (TitleCase (String.mk w)).data))) ∧
    (splitDots (TitleCaseIdentifier s).data).length = (splitDots s.data).length := by
  have heq : (TitleCaseIdentifier s).data = joinDots ((splitDots s.data).map renderWords) :=
    scanFrags_eq s.data []
  constructor
  · show String.mk (scanFrags [] s.data) = _
    rw [scanFrags_eq s.data []]
    rfl
  · have hdotfree : ∀ q ∈ (splitDots s.data).map renderWords, '.' ∉ q := by
      intro q hq
      obtain ⟨p', hp', rfl⟩ := List.mem_map.mp hq
      exact not_dot_scanRender p' [] (by simp) (not_dot_scanSplit s.data [] p' (by simp) hp')
    rcases hsp : splitDots s.data with _ | ⟨p, rest⟩
    · exact absurd hsp (scanSplit_ne_nil s.data [])
    · rw [heq, hsp, List.map_cons, splitDots,
        scanSplit_joinDots (rest.map renderWords) (renderWords p) []
          (hdotfree (renderWords p) (by rw [hsp]; simp))
          (fun x hx => hdotfree x (by rw [hsp, List.map_cons]; exact List.mem_cons_of_mem _ hx))]
      simp

end Strmangle
